import Mathlib

/-! # elv-ws: a websocket broadcast hub (`main.go`)

A shallow embedding of the hub's registry, broadcast fan-out, chat persistence,
reader loop and presence heartbeat, followed by theorems about them.

Modelling conventions

* Go strings are lists of characters (`GoString`); frames are lists of bytes.
  A chat payload comes out of `json.Unmarshal`, so it is valid UTF-8, on which
  the byte-wise search for `": "` and `"@"` is the character-wise one.
* The global `clients` map is the list of its keys, in the order in which a
  `range` over the map happens to produce them.  A Go map has no duplicate
  keys, so theorems about the registry assume `Nodup`; since they hold for
  every list, they hold for every iteration order.  The `*sync.Mutex` values
  of the map only serialise writes to one connection and carry no data.
* Library calls whose result the program cannot determine are fields of `Env`:
  `json.Marshal`, `json.Unmarshal`, `(*websocket.Conn).WriteMessage` and the
  success of each `Execute` against the remote store.
* The remote store is two tables (`message`, `count`) with the row semantics of
  insert / select-where-id / update-where-id.
* Effects are recorded in trace fields of `Hub` (`writes`, `closed`, `calls`,
  `sent`); they are history variables, never read by the program.
* Execution is sequential: one call of a function runs to completion before the
  next one starts.  Interleavings of goroutines are not modelled.
* The content of the codec (which JSON value becomes which Go value and back)
  is modelled separately, on JSON values rather than bytes, in the section on
  the message codec.
-/

namespace ElvWs

/-- Go `string`. -/
abbrev GoString := List Char

/-- Go `[]byte`. -/
abbrev Bytes := List UInt8

/-- Identity of a `*websocket.Conn`. -/
abbrev Conn := Nat

/-- Finite `float64` values, `(-1)^neg * mant * 2^exp`. -/
structure Float64 where
  neg : Bool
  mant : Nat
  exp : Int
  deriving DecidableEq, Repr

mutual
/-- Dynamic values an `interface{}` holds in this program: what `json.Unmarshal`
stores into an `interface{}` (`nil`, `bool`, `float64`, `string`,
`[]interface{}`, `map[string]interface{}`) and the `int` of `len(clients)`. -/
inductive Value where
  | nil
  | bool (b : Bool)
  | float64 (f : Float64)
  | int (n : Int)
  | string (s : GoString)
  | slice (xs : ValueList)
  | map (kvs : ValueMap)
  deriving DecidableEq, Repr
/-- Elements of a `[]interface{}`. -/
inductive ValueList where
  | nil
  | cons (v : Value) (vs : ValueList)
  deriving DecidableEq, Repr
/-- Entries of a `map[string]interface{}`. -/
inductive ValueMap where
  | nil
  | cons (k : GoString) (v : Value) (kvs : ValueMap)
  deriving DecidableEq, Repr
end

/-- `type Message struct { MessageType string; Data interface{} }`. -/
structure Message where
  MessageType : GoString
  Data : Value
  deriving DecidableEq, Repr

/-- `type Data struct { Name string; Content string }`: a row of table `message`. -/
structure Data where
  Name : GoString
  Content : GoString
  deriving DecidableEq, Repr

/-- `type CountData struct { ID string; Count int }`: a row of table `count`. -/
structure CountData where
  ID : GoString
  Count : Int
  deriving DecidableEq, Repr

/-- Go `int` arithmetic (64 bit, two's complement): the representative of `x`
in `[-2^63, 2^63)`. -/
def wrapInt64 (x : Int) : Int := (x + 2 ^ 63) % 2 ^ 64 - 2 ^ 63

namespace strings

/-- `strings.HasPrefix(s, prefix)`. -/
def HasPrefix : GoString → GoString → Bool
  | _, [] => true
  | [], _ :: _ => false
  | a :: s, b :: p => a == b && HasPrefix s p

/-- `strings.Index(s, sep)`: index of the first occurrence of `sep` in `s`,
`none` for Go's `-1`. -/
def Index : GoString → GoString → Option Nat
  | [], sep => if sep.isEmpty then some 0 else none
  | a :: s, sep =>
    if HasPrefix (a :: s) sep then some 0
    else (Index s sep).map (· + 1)

/-- `strings.SplitN(s, sep, n)` for `n ≥ 0` and a non-empty `sep` (the program
calls it with `": "` and `2`): at most `n` pieces, the last one the unsplit
rest. -/
def SplitN (s sep : GoString) : Nat → List GoString
  | 0 => []
  | 1 => [s]
  | n + 2 =>
    match Index s sep with
    | none => [s]
    | some m => s.take m :: SplitN (s.drop (m + sep.length)) sep (n + 1)

/-- `strings.TrimPrefix(s, prefix)`. -/
def TrimPrefix (s pre : GoString) : GoString :=
  if HasPrefix s pre then s.drop pre.length else s

end strings

/-- One request built with the store client and run by `Execute`. -/
inductive StoreCall where
  | insertMessage (row : Data)
  | selectCount (id : GoString)
  | updateCount (id : GoString) (count : Int)
  | insertCount (row : CountData)
  deriving DecidableEq, Repr

/-- The remote store: tables `message` and `count`. -/
structure Store where
  message : List Data
  count : List CountData
  deriving DecidableEq, Repr

/-- Effect of a successful request on the tables. -/
def Store.apply (s : Store) : StoreCall → Store
  | .insertMessage row => { s with message := s.message ++ [row] }
  | .selectCount _ => s
  | .updateCount id count =>
    { s with count := s.count.map (fun r => if r.ID = id then { r with Count := count } else r) }
  | .insertCount row => { s with count := s.count ++ [row] }

/-- Rows for `From("count").Select("*").Eq("id", id)`. -/
def Store.select (s : Store) (id : GoString) : List CountData :=
  s.count.filter (fun r => r.ID = id)

/-- One `client.WriteMessage(websocket.TextMessage, payload)` and whether it
returned an error. -/
structure WriteAttempt where
  client : Conn
  payload : Bytes
  err : Bool
  deriving DecidableEq, Repr

/-- The environment: results of the library calls. -/
structure Env where
  /-- Result of `json.Marshal(message)`; `none` is an error. -/
  Marshal : Message → Option Bytes
  /-- Result of `json.Unmarshal(p, &incomingMessage)`; `none` is an error. -/
  Unmarshal : Bytes → Option Message
  /-- Whether `client.WriteMessage(_, payload)` returns an error. -/
  WriteMessage : Conn → Bytes → Bool
  /-- Whether the store request number `i` (counted from 0) returns an error. -/
  Execute : Nat → Bool

/-- Program state: the `clients` map, the remote store, and the traces. -/
structure Hub where
  /-- Keys of `clients`. -/
  clients : List Conn
  /-- Tables behind `supabase`. -/
  store : Store
  /-- Trace of `WriteMessage` calls. -/
  writes : List WriteAttempt
  /-- Trace of `Close` calls. -/
  closed : List Conn
  /-- Trace of store requests. -/
  calls : List StoreCall
  /-- Trace of the arguments of `broadcastMessage`. -/
  sent : List Message
  deriving DecidableEq, Repr

/-- `delete(clients, ws)`. -/
def delete (clients : List Conn) (ws : Conn) : List Conn :=
  clients.filter (fun c => c ≠ ws)

/-- `clients[ws] = &sync.Mutex{}`: a present key keeps its place. -/
def assign (clients : List Conn) (ws : Conn) : List Conn :=
  if ws ∈ clients then clients else clients ++ [ws]

/-- `Execute` of one store request: the request is traced; on success the
tables change and the selected rows are returned, on error (`none`) the tables
are left as they were. -/
def execute (env : Env) (call : StoreCall) (h : Hub) : Hub × Option (List CountData) :=
  let h1 := { h with calls := h.calls ++ [call] }
  if env.Execute h.calls.length then (h1, none)
  else
    ({ h1 with store := h.store.apply call },
      some (match call with
        | .selectCount id => h.store.select id
        | _ => []))

/-- The body of `for client, mutex := range clients` (lines 102-111), over the
keys `todo` the iteration has still to produce.  A key deleted before it is
reached is not produced. -/
def fanOut (env : Env) (jsonData : Bytes) : List Conn → Hub → Hub
  | [], h => h
  | client :: todo, h =>
    if client ∈ h.clients then
      let err := env.WriteMessage client jsonData
      let h1 := { h with writes := h.writes ++ [⟨client, jsonData, err⟩] }
      if err then
        fanOut env jsonData todo
          { h1 with closed := h1.closed ++ [client], clients := delete h1.clients client }
      else fanOut env jsonData todo h1
    else fanOut env jsonData todo h

/-- Lines 121-133: the row built from a chat payload, `none` when
`len(parts) < 2`. -/
def chatRow (messageStr : GoString) : Option Data :=
  let parts := strings.SplitN messageStr ": ".toList 2
  if parts.length < 2 then none
  else
    let name := strings.TrimPrefix (parts.getD 0 []) "@".toList
    let content := parts.getD 1 []
    some { Name := name, Content := content }

/-- Lines 135-166: insert the row, then create or increment its counter. -/
def persist (env : Env) (row : Data) (h : Hub) : Hub :=
  let content := row.Content
  match execute env (.insertMessage row) h with
  | (h1, none) => h1
  | (h1, some _) =>
    match execute env (.selectCount content) h1 with
    | (h2, none) => h2
    | (h2, some countResults) =>
      match countResults with
      | first :: _ =>
        let newCount := wrapInt64 (first.Count + 1)
        (execute env (.updateCount content newCount) h2).1
      | [] =>
        (execute env (.insertCount { ID := content, Count := 1 }) h2).1

/-- `func broadcastMessage(message Message)`. -/
def broadcastMessage (env : Env) (message : Message) (h : Hub) : Hub :=
  let h0 := { h with sent := h.sent ++ [message] }
  match env.Marshal message with
  | none => h0
  | some jsonData =>
    let h1 := fanOut env jsonData h0.clients h0
    if message.MessageType ≠ "chat".toList then h1
    else
      match message.Data with
      | .string messageStr =>
        match chatRow messageStr with
        | none => h1
        | some row => persist env row h1
      | _ => h1

/-- Result of one `ws.ReadMessage()`. -/
inductive ReadResult where
  | err
  | frame (p : Bytes)
  deriving DecidableEq, Repr

/-- One iteration of the `for` loop of `handleConnection` (lines 75-89) on the
result of its read.  The flag says whether the function returned (the deferred
`ws.Close()` then ran). -/
def readIter (env : Env) (ws : Conn) (r : ReadResult) (h : Hub) : Hub × Bool :=
  match r with
  | .err => ({ h with clients := delete h.clients ws, closed := h.closed ++ [ws] }, true)
  | .frame p =>
    match env.Unmarshal p with
    | none => (h, false)
    | some incomingMessage =>
      (broadcastMessage env { MessageType := "chat".toList, Data := incomingMessage.Data } h, false)

/-- The `for` loop of `handleConnection` over the results of the successive
reads.  With the results used up and no error among them the loop is blocked
in `ReadMessage` (flag `false`). -/
def readLoop (env : Env) (ws : Conn) : List ReadResult → Hub → Hub × Bool
  | [], h => (h, false)
  | r :: rest, h =>
    match readIter env ws r h with
    | (h1, true) => (h1, true)
    | (h1, false) => readLoop env ws rest h1

/-- `func handleConnection(w, r)`: `upgrade` is the connection the upgrade
produced (`none` when it failed). -/
def handleConnection (env : Env) (upgrade : Option Conn) (reads : List ReadResult)
    (h : Hub) : Hub × Bool :=
  match upgrade with
  | none => (h, true)
  | some ws => readLoop env ws reads { h with clients := assign h.clients ws }

/-- The chat payloads `msgs` broadcast one after the other. -/
def broadcastChats (env : Env) (msgs : List GoString) (h : Hub) : Hub :=
  msgs.foldl (fun h s => broadcastMessage env ⟨"chat".toList, .string s⟩ h) h

/-- Number of payloads in `msgs` whose chat row has content `c`. -/
def contentCount (c : GoString) (msgs : List GoString) : Nat :=
  msgs.countP (fun s => (chatRow s).map Data.Content = some c)

/-- The frames read before the first read error. -/
def framesRead : List ReadResult → List Bytes
  | [] => []
  | .err :: _ => []
  | .frame p :: rest => p :: framesRead rest

/-- A sample environment: every envelope encodes to the same two bytes, the
empty frame does not decode and every other frame decodes to an envelope of
type `online`, writes to connection 2 fail, the store never fails. -/
def sampleEnv : Env where
  Marshal := fun _ => some [123, 125]
  Unmarshal := fun p =>
    if p.isEmpty then none
    else some { MessageType := "online".toList, Data := .string "@bob: hi there".toList }
  WriteMessage := fun c _ => c == 2
  Execute := fun _ => false

/-- Connections whose write returned an error, in a trace of writes. -/
def failedIn (ws : List WriteAttempt) : List Conn :=
  (ws.filter (fun w => w.err)).map (fun w => w.client)

/-- Lines 102-111 only: encode, fan out, no persistence. -/
def fanOutOnly (env : Env) (message : Message) (h : Hub) : Hub :=
  match env.Marshal message with
  | none => { h with sent := h.sent ++ [message] }
  | some jsonData => fanOut env jsonData h.clients { h with sent := h.sent ++ [message] }

/-- A hub with three registered connections and empty tables. -/
def sampleHub : Hub :=
  { clients := [1, 2, 3], store := { message := [], count := [] },
    writes := [], closed := [], calls := [], sent := [] }

/-! ## The message codec on values

`json.Unmarshal` into a `Message` and `json.Marshal` of a `Message`, as maps
between JSON values and Go values.  A JSON number stored into an `interface{}`
becomes a `float64` (`strconv.ParseFloat`, nearest value, ties to even); a
`float64` is written with the fewest digits that read back as the same value
(`strconv.FormatFloat` with precision `-1`).  A JSON number is kept as
`mant * 10^exp`; how it is spelled is not part of its content.  A JSON string
is kept as written, unit by unit: besides characters it may hold an unpaired
surrogate escape or a byte that is not UTF-8, each of which `json.Unmarshal`
replaces by U+FFFD. -/

/-- One unit of a JSON string as written. -/
inductive JUnit where
  /-- A character, written out or escaped (a surrogate pair is its character). -/
  | char (c : Char)
  /-- An unpaired surrogate escape, `\uD800` to `\uDFFF`. -/
  | surrogate (u : Nat)
  /-- A byte that is not part of a UTF-8 sequence. -/
  | invalid (b : UInt8)
  deriving DecidableEq, Repr

/-- A JSON string as written. -/
abbrev JString := List JUnit

/-- The Go string `json.Unmarshal` makes of a JSON string: an unpaired surrogate
and an invalid byte become U+FFFD. -/
def decodeString (s : JString) : GoString :=
  s.map (fun u => match u with
    | .char c => c
    | .surrogate _ => Char.ofNat 65533
    | .invalid _ => Char.ofNat 65533)

/-- The JSON string `json.Marshal` writes for a Go string of characters. -/
def encodeString (s : GoString) : JString :=
  s.map JUnit.char

/-- A JSON string of characters only. -/
def JString.clean (s : JString) : Bool :=
  s.all (fun u => match u with
    | .char _ => true
    | _ => false)

/-- A JSON number, `mant * 10^exp`. -/
structure JNumber where
  mant : Int
  exp : Int
  deriving DecidableEq, Repr

mutual
/-- A JSON value. -/
inductive Json where
  | null
  | bool (b : Bool)
  | number (n : JNumber)
  | string (s : JString)
  | array (xs : JsonList)
  | object (ms : JsonMembers)
  deriving DecidableEq, Repr
/-- Elements of a JSON array. -/
inductive JsonList where
  | nil
  | cons (v : Json) (vs : JsonList)
  deriving DecidableEq, Repr
/-- Members of a JSON object, in the order written. -/
inductive JsonMembers where
  | nil
  | cons (k : JString) (v : Json) (ms : JsonMembers)
  deriving DecidableEq, Repr
end

/-- The wire envelope `{"messageType": <string>, "data": <value>}`. -/
structure Envelope where
  messageType : JString
  data : Json
  deriving DecidableEq, Repr

/-- Number of binary digits of `n`, with `fuel ≥ n` steps. -/
def bitLenAux : Nat → Nat → Nat
  | 0, _ => 0
  | fuel + 1, n => if n = 0 then 0 else bitLenAux fuel (n / 2) + 1

/-- Number of binary digits of `n` (`bits.Len`). -/
def bitLen (n : Nat) : Nat := bitLenAux n n

/-- The fraction `p / (q * 2^e)` as numerator and denominator. -/
def scale2 (p q : Nat) (e : Int) : Nat × Nat :=
  if 0 ≤ e then (p, q * 2 ^ e.toNat) else (p * 2 ^ (-e).toNat, q)

/-- The fraction `d * 10^k` as numerator and denominator. -/
def scale10 (d : Nat) (k : Int) : Nat × Nat :=
  if 0 ≤ k then (d * 10 ^ k.toNat, 1) else (d, 10 ^ (-k).toNat)

/-- The integer nearest to `num / den`, ties to even. -/
def roundHalfEven (num den : Nat) : Nat :=
  let m := num / den
  let r := num % den
  if 2 * r < den then m
  else if den < 2 * r then m + 1
  else if m % 2 = 0 then m else m + 1

/-- The binary exponent `e` of `p / q > 0` as a `float64`: the one with
`2^52 ≤ p / (q * 2^e) < 2^53`, and `-1074` for the subnormal values. -/
def binExp (p q : Nat) : Int :=
  let e0 : Int := (bitLen p : Int) - (bitLen q : Int) - 53
  max (if (scale2 p q e0).1 < (scale2 p q e0).2 * 2 ^ 53 then e0 else e0 + 1) (-1074)

/-- The `float64` nearest to `± p / q` (IEEE 754 round to nearest, ties to
even), `none` when the result is out of range. -/
def roundFloat64 (neg : Bool) (p q : Nat) : Option Float64 :=
  if p = 0 then some ⟨neg, 0, -1074⟩
  else
    let e := binExp p q
    let m := roundHalfEven (scale2 p q e).1 (scale2 p q e).2
    if m = 0 then some ⟨neg, 0, -1074⟩
    else if m = 2 ^ 53 then (if 971 < e + 1 then none else some ⟨neg, 2 ^ 52, e + 1⟩)
    else if 971 < e then none
    else some ⟨neg, m, e⟩

namespace strconv

/-- `strconv.ParseFloat(s, 64)` on the number `s` stands for. -/
def ParseFloat (n : JNumber) : Option Float64 :=
  roundFloat64 (decide (n.mant < 0)) (scale10 n.mant.natAbs n.exp).1 (scale10 n.mant.natAbs n.exp).2

/-- Whether `d * 10^k` reads back as the positive value `mant * 2^exp`. -/
def readsBack (mant : Nat) (exp : Int) (d : Nat) (k : Int) : Bool :=
  roundFloat64 false (scale10 d k).1 (scale10 d k).2 == some ⟨false, mant, exp⟩

/-- The shortest decimal `d * 10^k` that reads back as `mant * 2^exp`, looking
at the exponents `k = top - 1, top - 2, ...` in turn; at the first exponent
where a neighbour of the value reads back, the nearer such neighbour is taken
(ties to even). -/
def shortest (mant : Nat) (exp : Int) (top : Int) : Nat → Nat × Int
  | 0 => (mant, exp)
  | fuel + 1 =>
    let k := top - 1
    -- the value over `10^k` is `num / den`
    let v := scale2 mant 1 (-exp)
    let s := scale10 1 k
    let num := v.1 * s.2
    let den := v.2 * s.1
    let lo := num / den
    let hi := lo + 1
    let okLo := readsBack mant exp lo k
    let okHi := readsBack mant exp hi k
    if okLo && okHi then (roundHalfEven num den, k)
    else if okLo then (lo, k)
    else if okHi then (hi, k)
    else shortest mant exp k fuel

/-- `strconv.FormatFloat(f, fmt, -1, 64)`: the number the digits stand for.
An exact integer below `2^53` is written out digit for digit; any other value
gets its shortest decimal.  The search starts at an exponent `top` with
`10^(top - 1)` above the value (`2^n < 10^(n * 0.30103 + 1)`): from there on
up no power of ten reads back, and at most 17 digits are ever needed. -/
def FormatFloat (f : Float64) : JNumber :=
  let sign : Int := if f.neg then -1 else 1
  if f.mant = 0 then ⟨0, 0⟩
  else if f.exp ≤ 0 ∧ f.mant % 2 ^ (-f.exp).toNat = 0 then
    ⟨sign * (f.mant / 2 ^ (-f.exp).toNat : Nat), 0⟩
  else
    let top : Int := ((bitLen f.mant : Int) + f.exp) * 30103 / 100000 + 3
    let r := shortest f.mant f.exp top 64
    ⟨sign * r.1, r.2⟩

end strconv

/-- Lexicographic order of strings. -/
def strLt : GoString → GoString → Bool
  | [], [] => false
  | [], _ :: _ => true
  | _ :: _, [] => false
  | a :: s, b :: t => a.toNat < b.toNat || (a == b && strLt s t)

/-- `m[k] = v` on a map kept sorted by key. -/
def ValueMap.insert (k : GoString) (v : Value) : ValueMap → ValueMap
  | .nil => .cons k v .nil
  | .cons k1 v1 rest =>
    if k = k1 then .cons k v rest
    else if strLt k k1 then .cons k v (.cons k1 v1 rest)
    else .cons k1 v1 (ValueMap.insert k v rest)

namespace json

mutual
/-- Decoding of a JSON value into an `interface{}`; `none` when a number is out
of the range of `float64`. -/
def decodeValue : Json → Option Value
  | .null => some .nil
  | .bool b => some (.bool b)
  | .number n => (strconv.ParseFloat n).map Value.float64
  | .string s => some (.string (decodeString s))
  | .array xs => (decodeList xs).map Value.slice
  | .object ms => (decodeMembers ms .nil).map Value.map
/-- Decoding of the elements of an array. -/
def decodeList : JsonList → Option ValueList
  | .nil => some .nil
  | .cons v vs =>
    match decodeValue v, decodeList vs with
    | some a, some as => some (.cons a as)
    | _, _ => none
/-- Decoding of the members of an object into the map built so far; a repeated
key overwrites. -/
def decodeMembers : JsonMembers → ValueMap → Option ValueMap
  | .nil, acc => some acc
  | .cons k v ms, acc =>
    match decodeValue v with
    | some a => decodeMembers ms (ValueMap.insert (decodeString k) a acc)
    | none => none
end

mutual
/-- Encoding of a value held in an `interface{}`. -/
def encodeValue : Value → Json
  | .nil => .null
  | .bool b => .bool b
  | .float64 f => .number (strconv.FormatFloat f)
  | .int n => .number ⟨n, 0⟩
  | .string s => .string (encodeString s)
  | .slice xs => .array (encodeList xs)
  | .map kvs => .object (encodeMap kvs)
/-- Encoding of the elements of a slice. -/
def encodeList : ValueList → JsonList
  | .nil => .nil
  | .cons v vs => .cons (encodeValue v) (encodeList vs)
/-- Encoding of the entries of a map, by sorted key. -/
def encodeMap : ValueMap → JsonMembers
  | .nil => .nil
  | .cons k v kvs => .cons (encodeString k) (encodeValue v) (encodeMap kvs)
end

/-- `json.Unmarshal(p, &incomingMessage)` on a well-formed envelope. -/
def Unmarshal (e : Envelope) : Option Message :=
  (decodeValue e.data).map
    (fun v => { MessageType := decodeString e.messageType, Data := v })

/-- `json.Marshal(message)`. -/
def Marshal (message : Message) : Envelope :=
  { messageType := encodeString message.MessageType, data := encodeValue message.Data }

/-- Decode, then encode the result. -/
def roundTrip (e : Envelope) : Option Envelope :=
  (Unmarshal e).map Marshal

end json

/-! ### Content of JSON values -/

/-- Two JSON numbers with the same value. -/
def JNumber.same (a b : JNumber) : Bool :=
  a.mant * 10 ^ (a.exp - min a.exp b.exp).toNat
    == b.mant * 10 ^ (b.exp - min a.exp b.exp).toNat

/-- A number that comes back with its value: it is in the range of `float64`
and the shortest decimal of the `float64` nearest to it has its value. -/
def JNumber.kept (n : JNumber) : Bool :=
  match strconv.ParseFloat n with
  | some f => n.same (strconv.FormatFloat f)
  | none => false

/-- The value of the first member named `k`. -/
def JsonMembers.find : JsonMembers → JString → Option Json
  | .nil, _ => none
  | .cons k1 v ms, k => if k1 = k then some v else JsonMembers.find ms k

/-- Whether a member is named `k`. -/
def JsonMembers.hasKey : JsonMembers → JString → Bool
  | .nil, _ => false
  | .cons k1 _ ms, k => decide (k1 = k) || JsonMembers.hasKey ms k

/-- Number of members. -/
def JsonMembers.length : JsonMembers → Nat
  | .nil => 0
  | .cons _ _ ms => JsonMembers.length ms + 1

/-- No name occurs twice. -/
def JsonMembers.keysDistinct : JsonMembers → Bool
  | .nil => true
  | .cons k _ ms => !JsonMembers.hasKey ms k && JsonMembers.keysDistinct ms

/-- The value stored under `k`. -/
def ValueMap.find : ValueMap → GoString → Option Value
  | .nil, _ => none
  | .cons k1 v kvs, k => if k1 = k then some v else ValueMap.find kvs k

/-- Number of entries. -/
def ValueMap.length : ValueMap → Nat
  | .nil => 0
  | .cons _ _ kvs => ValueMap.length kvs + 1

mutual
/-- Same content: equal scalars (numbers by value, strings unit by unit),
arrays with the same content element by element, objects without a repeated
name that have the same names with the same content, in any order. -/
def Json.same : Json → Json → Bool
  | .null, .null => true
  | .bool a, .bool b => a == b
  | .number a, .number b => a.same b
  | .string s, .string t => s == t
  | .array xs, .array ys => JsonList.same xs ys
  | .object a, .object b =>
    JsonMembers.keysDistinct a && JsonMembers.length a == JsonMembers.length b
      && JsonMembers.sameIn a b
  | _, _ => false
/-- Element by element. -/
def JsonList.same : JsonList → JsonList → Bool
  | .nil, .nil => true
  | .cons v vs, .cons w ws => Json.same v w && JsonList.same vs ws
  | _, _ => false
/-- Every member of the first object is in the second, with the same content. -/
def JsonMembers.sameIn : JsonMembers → JsonMembers → Bool
  | .nil, _ => true
  | .cons k v ms, b =>
    (match JsonMembers.find b k with
      | some w => Json.same v w
      | none => false) && JsonMembers.sameIn ms b
end

mutual
/-- Data that comes back with its content: every number in it is kept, every
string and name in it is made of characters only, no object repeats a name. -/
def Json.kept : Json → Bool
  | .null => true
  | .bool _ => true
  | .number n => n.kept
  | .string s => s.clean
  | .array xs => JsonList.kept xs
  | .object ms => JsonMembers.kept ms && JsonMembers.keysDistinct ms
/-- All elements are kept. -/
def JsonList.kept : JsonList → Bool
  | .nil => true
  | .cons v vs => Json.kept v && JsonList.kept vs
/-- All names are clean and all values kept. -/
def JsonMembers.kept : JsonMembers → Bool
  | .nil => true
  | .cons k v ms => k.clean && Json.kept v && JsonMembers.kept ms
end

/-- An envelope that comes back with its content. -/
def Envelope.kept (e : Envelope) : Bool :=
  e.messageType.clean && e.data.kept

/-- Same `messageType`, same content of `data`. -/
def Envelope.same (a b : Envelope) : Bool :=
  a.messageType == b.messageType && a.data.same b.data

theorem mem_delete (clients : List Conn) (ws c : Conn) :
    c ∈ delete clients ws ↔ c ∈ clients ∧ c ≠ ws := by
  simp [delete]

theorem fanOut_cons_err (env : Env) (jsonData : Bytes) (client : Conn) (todo : List Conn)
    (h : Hub) (hmem : client ∈ h.clients) (herr : env.WriteMessage client jsonData = true) :
    fanOut env jsonData (client :: todo) h
      = fanOut env jsonData todo
          { h with writes := h.writes ++ [⟨client, jsonData, true⟩],
                   closed := h.closed ++ [client],
                   clients := delete h.clients client } := by
  simp [fanOut, hmem, herr]

theorem fanOut_cons_ok (env : Env) (jsonData : Bytes) (client : Conn) (todo : List Conn)
    (h : Hub) (hmem : client ∈ h.clients) (herr : env.WriteMessage client jsonData = false) :
    fanOut env jsonData (client :: todo) h
      = fanOut env jsonData todo
          { h with writes := h.writes ++ [⟨client, jsonData, false⟩] } := by
  simp [fanOut, hmem, herr]

/-- What the fan-out loop does when the keys still to produce are distinct
and all present. -/
theorem fanOut_spec (env : Env) (jsonData : Bytes) :
    ∀ (todo : List Conn) (h : Hub), todo.Nodup → (∀ c ∈ todo, c ∈ h.clients) →
      (fanOut env jsonData todo h).writes
          = h.writes ++ todo.map (fun c => ⟨c, jsonData, env.WriteMessage c jsonData⟩)
      ∧ (fanOut env jsonData todo h).clients
          = h.clients.filter (fun c => !(decide (c ∈ todo) && env.WriteMessage c jsonData))
      ∧ (fanOut env jsonData todo h).closed
          = h.closed ++ todo.filter (fun c => env.WriteMessage c jsonData)
      ∧ (fanOut env jsonData todo h).store = h.store
      ∧ (fanOut env jsonData todo h).calls = h.calls
      ∧ (fanOut env jsonData todo h).sent = h.sent := by
  intro todo
  induction todo with
  | nil =>
    intro h _ _
    simp [fanOut]
  | cons client todo ih =>
    intro h hnd hsub
    have hmem : client ∈ h.clients := hsub client (List.mem_cons_self _ _)
    have hnd' : todo.Nodup := (List.nodup_cons.mp hnd).2
    have hnot : client ∉ todo := (List.nodup_cons.mp hnd).1
    cases herr : env.WriteMessage client jsonData with
    | true =>
      have hsub' : ∀ c ∈ todo, c ∈ delete h.clients client := by
        intro c hc
        rw [mem_delete]
        refine ⟨hsub c (List.mem_cons_of_mem _ hc), ?_⟩
        rintro rfl
        exact hnot hc
      obtain ⟨h1, h2, h3, h4, h5, h6⟩ := ih
        { h with writes := h.writes ++ [⟨client, jsonData, true⟩],
                 closed := h.closed ++ [client],
                 clients := delete h.clients client } hnd' hsub'
      rw [fanOut_cons_err env jsonData client todo h hmem herr]
      refine ⟨?_, ?_, ?_, h4, h5, h6⟩
      · rw [h1]; simp [herr]
      · rw [h2]
        simp only [delete, List.filter_filter]
        apply List.filter_congr
        intro c hc
        by_cases hcc : c = client
        · subst hcc; simp [herr]
        · simp [hcc]
      · rw [h3]; simp [List.filter_cons, herr]
    | false =>
      obtain ⟨h1, h2, h3, h4, h5, h6⟩ := ih
        { h with writes := h.writes ++ [⟨client, jsonData, false⟩] } hnd'
        (fun c hc => hsub c (List.mem_cons_of_mem _ hc))
      rw [fanOut_cons_ok env jsonData client todo h hmem herr]
      refine ⟨?_, ?_, ?_, h4, h5, h6⟩
      · rw [h1]; simp [herr]
      · rw [h2]
        apply List.filter_congr
        intro c hc
        by_cases hcc : c = client
        · subst hcc; simp [herr]
        · simp [hcc]
      · rw [h3]; simp [List.filter_cons, herr]

theorem fanOut_frame (env : Env) (jsonData : Bytes) :
    ∀ (todo : List Conn) (h : Hub),
      (fanOut env jsonData todo h).store = h.store
      ∧ (fanOut env jsonData todo h).calls = h.calls
      ∧ (fanOut env jsonData todo h).sent = h.sent
      ∧ (∀ c ∈ (fanOut env jsonData todo h).clients, c ∈ h.clients) := by
  intro todo
  induction todo with
  | nil => intro h; simp [fanOut]
  | cons client todo ih =>
    intro h
    by_cases hmem : client ∈ h.clients
    · cases herr : env.WriteMessage client jsonData with
      | true =>
        rw [fanOut_cons_err env jsonData client todo h hmem herr]
        obtain ⟨h1, h2, h3, h4⟩ := ih
          { h with writes := h.writes ++ [⟨client, jsonData, true⟩],
                   closed := h.closed ++ [client],
                   clients := delete h.clients client }
        refine ⟨h1, h2, h3, ?_⟩
        intro c hc
        exact ((mem_delete _ _ _).mp (h4 c hc)).1
      | false =>
        rw [fanOut_cons_ok env jsonData client todo h hmem herr]
        exact ih { h with writes := h.writes ++ [⟨client, jsonData, false⟩] }
    · have : fanOut env jsonData (client :: todo) h = fanOut env jsonData todo h := by
        simp [fanOut, hmem]
      rw [this]
      exact ih h

theorem execute_frame (env : Env) (call : StoreCall) (h : Hub) :
    (execute env call h).1.clients = h.clients
    ∧ (execute env call h).1.writes = h.writes
    ∧ (execute env call h).1.closed = h.closed
    ∧ (execute env call h).1.sent = h.sent
    ∧ (execute env call h).1.calls = h.calls ++ [call] := by
  unfold execute
  by_cases hf : env.Execute h.calls.length = true <;> simp [hf]

theorem persist_frame (env : Env) (row : Data) (h : Hub) :
    (persist env row h).clients = h.clients
    ∧ (persist env row h).writes = h.writes
    ∧ (persist env row h).closed = h.closed
    ∧ (persist env row h).sent = h.sent := by
  unfold persist
  have e1 := execute_frame env (.insertMessage row) h
  rcases hx1 : execute env (.insertMessage row) h with ⟨h1, r1⟩
  rw [hx1] at e1
  cases r1 with
  | none => exact ⟨e1.1, e1.2.1, e1.2.2.1, e1.2.2.2.1⟩
  | some _ =>
    dsimp only
    have e2 := execute_frame env (.selectCount row.Content) h1
    rcases hx2 : execute env (.selectCount row.Content) h1 with ⟨h2, r2⟩
    rw [hx2] at e2
    cases r2 with
    | none =>
      exact ⟨e2.1.trans e1.1, e2.2.1.trans e1.2.1, e2.2.2.1.trans e1.2.2.1,
        e2.2.2.2.1.trans e1.2.2.2.1⟩
    | some rows =>
      cases rows with
      | nil =>
        have e3 := execute_frame env (.insertCount { ID := row.Content, Count := 1 }) h2
        exact ⟨(e3.1.trans e2.1).trans e1.1, (e3.2.1.trans e2.2.1).trans e1.2.1,
          (e3.2.2.1.trans e2.2.2.1).trans e1.2.2.1,
          (e3.2.2.2.1.trans e2.2.2.2.1).trans e1.2.2.2.1⟩
      | cons first rest =>
        have e3 := execute_frame env
          (.updateCount row.Content (wrapInt64 (first.Count + 1))) h2
        exact ⟨(e3.1.trans e2.1).trans e1.1, (e3.2.1.trans e2.2.1).trans e1.2.1,
          (e3.2.2.1.trans e2.2.2.1).trans e1.2.2.1,
          (e3.2.2.2.1.trans e2.2.2.2.1).trans e1.2.2.2.1⟩

theorem fanOutOnly_some (env : Env) (message : Message) (h : Hub) (jsonData : Bytes)
    (henc : env.Marshal message = some jsonData) :
    fanOutOnly env message h
      = fanOut env jsonData h.clients { h with sent := h.sent ++ [message] } := by
  simp [fanOutOnly, henc]

theorem fanOutOnly_none (env : Env) (message : Message) (h : Hub)
    (henc : env.Marshal message = none) :
    fanOutOnly env message h = { h with sent := h.sent ++ [message] } := by
  simp [fanOutOnly, henc]

/-- Persistence touches neither the registry nor the connection traces, so on
these fields `broadcastMessage` is its fan-out. -/
theorem broadcastMessage_fields (env : Env) (message : Message) (h : Hub) :
    (broadcastMessage env message h).clients = (fanOutOnly env message h).clients
    ∧ (broadcastMessage env message h).writes = (fanOutOnly env message h).writes
    ∧ (broadcastMessage env message h).closed = (fanOutOnly env message h).closed
    ∧ (broadcastMessage env message h).sent = (fanOutOnly env message h).sent := by
  unfold broadcastMessage fanOutOnly
  cases henc : env.Marshal message with
  | none => simp
  | some jsonData =>
    simp only
    split
    · simp
    · split
      · split
        · simp
        · exact persist_frame env _ _
      · simp

theorem broadcastMessage_sent (env : Env) (message : Message) (h : Hub) :
    (broadcastMessage env message h).sent = h.sent ++ [message] := by
  rw [(broadcastMessage_fields env message h).2.2.2]
  unfold fanOutOnly
  cases henc : env.Marshal message with
  | none => rfl
  | some jsonData => exact (fanOut_frame env jsonData _ _).2.2.1

theorem HasPrefix_iff : ∀ (s p : GoString), strings.HasPrefix s p = true ↔ p <+: s := by
  intro s
  induction s with
  | nil =>
    intro p
    cases p with
    | nil => simp [strings.HasPrefix]
    | cons b p => simp [strings.HasPrefix]
  | cons a s ih =>
    intro p
    cases p with
    | nil => simp [strings.HasPrefix]
    | cons b p =>
      simp only [strings.HasPrefix, Bool.and_eq_true, beq_iff_eq, ih, List.cons_prefix_cons]
      constructor <;> rintro ⟨h1, h2⟩ <;> exact ⟨h1.symm, h2⟩

/-- `strings.Index` finds the first occurrence: the text before it has the
returned length, and no occurrence starts earlier. -/
theorem Index_some (sep : GoString) :
    ∀ (s : GoString) (m : Nat), strings.Index s sep = some m →
      (∃ pre post, s = pre ++ sep ++ post ∧ pre.length = m)
      ∧ (∀ p q, s = p ++ sep ++ q → m ≤ p.length) := by
  intro s
  induction s with
  | nil =>
    intro m hm
    simp only [strings.Index] at hm
    split at hm
    · rename_i hsep
      injection hm with hm
      subst hm
      have : sep = [] := by simpa using hsep
      subst this
      exact ⟨⟨[], [], rfl, rfl⟩, fun _ _ _ => Nat.zero_le _⟩
    · exact absurd hm (by simp)
  | cons a s ih =>
    intro m hm
    simp only [strings.Index] at hm
    split at hm
    · rename_i hpre
      injection hm with hm
      subst hm
      obtain ⟨post, hpost⟩ := (HasPrefix_iff _ _).mp hpre
      exact ⟨⟨[], post, by simpa using hpost.symm, rfl⟩, fun _ _ _ => Nat.zero_le _⟩
    · rename_i hpre
      cases hidx : strings.Index s sep with
      | none => simp [hidx] at hm
      | some m' =>
        simp only [hidx, Option.map_some', Option.some.injEq] at hm
        subst hm
        obtain ⟨⟨pre, post, hs, hlen⟩, hmin⟩ := ih m' hidx
        refine ⟨⟨a :: pre, post, by simp [hs], by simp [hlen]⟩, ?_⟩
        intro p q hpq
        cases p with
        | nil =>
          exfalso
          apply hpre
          exact (HasPrefix_iff _ _).mpr ⟨q, by simpa using hpq.symm⟩
        | cons b p =>
          simp only [List.cons_append, List.cons.injEq] at hpq
          have := hmin p q hpq.2
          simp only [List.length_cons]
          omega

theorem Index_none (sep : GoString) :
    ∀ (s : GoString), strings.Index s sep = none → ∀ p q, s ≠ p ++ sep ++ q := by
  intro s
  induction s with
  | nil =>
    intro hm p q hpq
    simp only [strings.Index] at hm
    split at hm
    · exact absurd hm (by simp)
    · rename_i hsep
      have h1 : sep = [] := by
        have := congrArg List.length hpq
        simp only [List.length_nil, List.length_append] at this
        exact List.length_eq_zero.mp (by omega)
      exact hsep (by simp [h1])
  | cons a s ih =>
    intro hm p q hpq
    simp only [strings.Index] at hm
    split at hm
    · exact absurd hm (by simp)
    · rename_i hpre
      cases hidx : strings.Index s sep with
      | some m' => simp [hidx] at hm
      | none =>
        cases p with
        | nil =>
          apply hpre
          exact (HasPrefix_iff _ _).mpr ⟨q, by simpa using hpq.symm⟩
        | cons b p =>
          simp only [List.cons_append, List.cons.injEq] at hpq
          exact ih hidx p q hpq.2

/-- The split of a payload at its first `": "`. -/
theorem SplitN_first (s sep pre post : GoString) (hs : s = pre ++ sep ++ post)
    (hmin : ∀ p q, s = p ++ sep ++ q → pre.length ≤ p.length) :
    strings.SplitN s sep 2 = [pre, post] := by
  cases hidx : strings.Index s sep with
  | none => exact absurd hs (Index_none sep s hidx pre post)
  | some m =>
    obtain ⟨⟨pre', post', hs', hlen⟩, hmin'⟩ := Index_some sep s m hidx
    have h1 : pre.length ≤ pre'.length := hmin pre' post' hs'
    have h2 : pre'.length ≤ pre.length := by
      rw [hlen]; exact hmin' pre post hs
    have hlen' : pre.length = m := by omega
    have htake : s.take m = pre := by
      rw [hs, List.append_assoc, ← hlen', List.take_left]
    have hdrop : s.drop (m + sep.length) = post := by
      rw [hs, ← hlen', ← List.length_append, List.drop_left]
    simp [strings.SplitN, hidx, htake, hdrop]

theorem SplitN_absent (s sep : GoString) (habs : ¬ sep <:+: s) :
    strings.SplitN s sep 2 = [s] := by
  cases hidx : strings.Index s sep with
  | none => simp [strings.SplitN, hidx]
  | some m =>
    obtain ⟨⟨pre, post, hs, _⟩, _⟩ := Index_some sep s m hidx
    exact absurd ⟨pre, post, hs.symm⟩ habs

theorem exists_first_occurrence (s sep : GoString) (hin : sep <:+: s) :
    ∃ pre post, s = pre ++ sep ++ post ∧ ∀ p q, s = p ++ sep ++ q → pre.length ≤ p.length := by
  cases hidx : strings.Index s sep with
  | none =>
    obtain ⟨p, q, hpq⟩ := hin
    exact absurd hpq.symm (Index_none sep s hidx p q)
  | some m =>
    obtain ⟨⟨pre, post, hs, hlen⟩, hmin⟩ := Index_some sep s m hidx
    exact ⟨pre, post, hs, fun p q hpq => hlen ▸ hmin p q hpq⟩

theorem TrimPrefix_at (pre : GoString) :
    strings.TrimPrefix pre "@".toList = if pre.head? = some '@' then pre.tail else pre := by
  cases pre with
  | nil => rfl
  | cons a t =>
    by_cases ha : a = '@'
    · subst ha
      have h1 : strings.HasPrefix ('@' :: t) "@".toList = true := by
        show ('@' == '@' && strings.HasPrefix t []) = true
        simp [strings.HasPrefix]
      unfold strings.TrimPrefix
      rw [h1]
      simp
    · have h1 : strings.HasPrefix (a :: t) "@".toList = false := by
        show (a == '@' && strings.HasPrefix t []) = false
        simp [ha]
      have h2 : ¬ ((a :: t).head? = some '@') := by simpa using ha
      rw [if_neg h2]
      unfold strings.TrimPrefix
      rw [h1]
      rfl

theorem chatRow_first (s pre post : GoString) (hs : s = pre ++ ": ".toList ++ post)
    (hmin : ∀ p q, s = p ++ ": ".toList ++ q → pre.length ≤ p.length) :
    chatRow s = some ⟨if pre.head? = some '@' then pre.tail else pre, post⟩ := by
  unfold chatRow
  rw [SplitN_first s _ pre post hs hmin, ← TrimPrefix_at]
  rfl

theorem chatRow_absent (s : GoString) (habs : ¬ ": ".toList <:+: s) : chatRow s = none := by
  unfold chatRow
  rw [SplitN_absent s _ habs]
  rfl

/-! ## Store requests -/

theorem select_insertMessage (s : Store) (row : Data) (c : GoString) :
    (s.apply (.insertMessage row)).select c = s.select c := rfl

theorem select_updateCount_same (s : Store) (c : GoString) (k : Int) :
    (s.apply (.updateCount c k)).select c
      = (s.select c).map (fun r => { r with Count := k }) := by
  simp only [Store.apply, Store.select]
  induction s.count with
  | nil => rfl
  | cons r rs ih =>
    by_cases hr : r.ID = c
    · simp [List.filter_cons, hr, ih]
    · simp [List.filter_cons, hr, ih]

theorem select_updateCount_other (s : Store) (c id : GoString) (k : Int) (hne : id ≠ c) :
    (s.apply (.updateCount id k)).select c = s.select c := by
  simp only [Store.apply, Store.select]
  induction s.count with
  | nil => rfl
  | cons r rs ih =>
    by_cases hr : r.ID = id
    · have hrc : r.ID ≠ c := by rw [hr]; exact hne
      simp [List.filter_cons, hr, hne, ih]
    · simp [List.filter_cons, hr, ih]

theorem select_insertCount (s : Store) (row : CountData) (c : GoString) :
    (s.apply (.insertCount row)).select c
      = s.select c ++ (if row.ID = c then [row] else []) := by
  simp only [Store.apply, Store.select, List.filter_append]
  by_cases hr : row.ID = c <;> simp [List.filter_cons, hr]

/-- With every request succeeding, `persist` makes three requests: the insert
of the row, the select of its counter, and the update or insert of the
counter. -/
theorem persist_ok (env : Env) (hok : ∀ i, env.Execute i = false) (row : Data) (h : Hub) :
    (persist env row h).store
        = (match h.store.select row.Content with
            | first :: _ =>
              (h.store.apply (.insertMessage row)).apply
                (.updateCount row.Content (wrapInt64 (first.Count + 1)))
            | [] =>
              (h.store.apply (.insertMessage row)).apply
                (.insertCount { ID := row.Content, Count := 1 }))
    ∧ (persist env row h).calls
        = h.calls ++ [.insertMessage row, .selectCount row.Content,
            (match h.store.select row.Content with
              | first :: _ => .updateCount row.Content (wrapInt64 (first.Count + 1))
              | [] => .insertCount { ID := row.Content, Count := 1 })] := by
  unfold persist execute
  simp only [hok, Bool.false_eq_true, if_false]
  have hsel : (h.store.apply (.insertMessage row)).select row.Content
      = h.store.select row.Content := rfl
  rw [hsel]
  have hap : ∀ (t : Store) (id : GoString), t.apply (.selectCount id) = t := fun _ _ => rfl
  cases h.store.select row.Content with
  | nil => simp [hap]
  | cons first rest => simp [hok, hap]

/-- Whatever the store answers, the first request of `persist` is the insert
of the row, and no later request inserts a message. -/
theorem persist_calls_head (env : Env) (row : Data) (h : Hub) :
    ∃ rest, (persist env row h).calls = h.calls ++ StoreCall.insertMessage row :: rest
      ∧ ∀ call ∈ rest, ∀ row', call ≠ StoreCall.insertMessage row' := by
  unfold persist
  have e1 := (execute_frame env (.insertMessage row) h).2.2.2.2
  rcases hx1 : execute env (.insertMessage row) h with ⟨h1, r1⟩
  rw [hx1] at e1
  cases r1 with
  | none => exact ⟨[], e1, by simp⟩
  | some _ =>
    dsimp only
    have e2 := (execute_frame env (.selectCount row.Content) h1).2.2.2.2
    rcases hx2 : execute env (.selectCount row.Content) h1 with ⟨h2, r2⟩
    rw [hx2] at e2
    dsimp only at e1 e2
    cases r2 with
    | none =>
      refine ⟨[.selectCount row.Content], ?_, by simp⟩
      dsimp only
      rw [e2, e1]; simp
    | some rows =>
      cases rows with
      | nil =>
        have e3 := (execute_frame env (.insertCount { ID := row.Content, Count := 1 }) h2).2.2.2.2
        refine ⟨[.selectCount row.Content, .insertCount { ID := row.Content, Count := 1 }],
          ?_, by simp⟩
        dsimp only
        rw [e3, e2, e1]; simp
      | cons first rest =>
        have e3 := (execute_frame env
          (.updateCount row.Content (wrapInt64 (first.Count + 1))) h2).2.2.2.2
        refine ⟨[.selectCount row.Content,
          .updateCount row.Content (wrapInt64 (first.Count + 1))], ?_, by simp⟩
        dsimp only
        rw [e3, e2, e1]; simp

/-- A chat envelope with a string payload that encodes: the fan-out, then the
persistence of the payload's row when it has one. -/
theorem broadcastMessage_chat (env : Env) (s : GoString) (h : Hub) (jsonData : Bytes)
    (henc : env.Marshal ⟨"chat".toList, .string s⟩ = some jsonData) :
    broadcastMessage env ⟨"chat".toList, .string s⟩ h
      = (match chatRow s with
          | none => fanOutOnly env ⟨"chat".toList, .string s⟩ h
          | some row => persist env row (fanOutOnly env ⟨"chat".toList, .string s⟩ h)) := by
  rw [fanOutOnly_some env _ h jsonData henc]
  unfold broadcastMessage
  simp only [henc]
  rw [if_neg (by simp)]

theorem fanOutOnly_store (env : Env) (message : Message) (h : Hub) :
    (fanOutOnly env message h).store = h.store
    ∧ (fanOutOnly env message h).calls = h.calls := by
  unfold fanOutOnly
  cases henc : env.Marshal message with
  | none => exact ⟨rfl, rfl⟩
  | some jsonData =>
    exact ⟨(fanOut_frame env jsonData _ _).1, (fanOut_frame env jsonData _ _).2.1⟩

/-! ## Broadcast fan-out (C1, C2) -/

/-- Claim C1. When the envelope encodes to `jsonData`, the writes of one
`broadcastMessage` are one attempt per registered connection (in iteration
order, each connection exactly once), every attempt carries `jsonData`, its
outcome is that connection's own, and every connection whose write succeeds
has the successful write in the trace whatever the others did. -/
theorem broadcastMessage_writes_each_once (env : Env) (message : Message) (h : Hub)
    (jsonData : Bytes) (henc : env.Marshal message = some jsonData)
    (hnd : h.clients.Nodup) :
    ∃ new : List WriteAttempt,
      (broadcastMessage env message h).writes = h.writes ++ new
      ∧ new.map (fun w => w.client) = h.clients
      ∧ (∀ c, new.countP (fun w => w.client = c) = if c ∈ h.clients then 1 else 0)
      ∧ (∀ w ∈ new, w.payload = jsonData ∧ w.err = env.WriteMessage w.client jsonData)
      ∧ (∀ c ∈ h.clients, env.WriteMessage c jsonData = false →
          (⟨c, jsonData, false⟩ : WriteAttempt) ∈ new) := by
  refine ⟨h.clients.map (fun c => ⟨c, jsonData, env.WriteMessage c jsonData⟩), ?_, ?_, ?_, ?_, ?_⟩
  · rw [(broadcastMessage_fields env message h).2.1, fanOutOnly_some env message h jsonData henc]
    exact (fanOut_spec env jsonData h.clients { h with sent := h.sent ++ [message] } hnd
      (fun c hc => hc)).1
  · simp [List.map_map, Function.comp_def]
  · intro c
    rw [List.countP_map]
    have : (fun w : WriteAttempt => decide (w.client = c))
        ∘ (fun c => (⟨c, jsonData, env.WriteMessage c jsonData⟩ : WriteAttempt))
        = fun x => x == c := by
      funext x
      by_cases hx : x = c <;> simp [Function.comp, hx]
    rw [this]
    have hc := List.count_eq_of_nodup (a := c) hnd
    simpa [List.count] using hc
  · intro w hw
    obtain ⟨c, _, rfl⟩ := List.mem_map.mp hw
    exact ⟨rfl, rfl⟩
  · intro c hc hok
    exact List.mem_map.mpr ⟨c, hc, by rw [hok]⟩

/-- Witness for C1: three registered connections, the write to connection 2
fails. -/
theorem broadcastMessage_writes_each_once_witness :
    ∃ new : List WriteAttempt,
      (broadcastMessage sampleEnv ⟨"chat".toList, .string "@bob: hi there".toList⟩ sampleHub).writes
        = sampleHub.writes ++ new
      ∧ new.map (fun w => w.client) = [1, 2, 3]
      ∧ (∀ c, new.countP (fun w => w.client = c) = if c ∈ sampleHub.clients then 1 else 0)
      ∧ (∀ w ∈ new, w.payload = [123, 125] ∧ w.err = sampleEnv.WriteMessage w.client [123, 125])
      ∧ (∀ c ∈ sampleHub.clients, sampleEnv.WriteMessage c [123, 125] = false →
          (⟨c, [123, 125], false⟩ : WriteAttempt) ∈ new) :=
  broadcastMessage_writes_each_once sampleEnv _ sampleHub [123, 125] rfl (by decide)

/-- Claim C2. After one `broadcastMessage` the registry is the prior registry
minus the connections whose write failed during the call; exactly those are
closed, each was registered, and nothing is added. -/
theorem broadcastMessage_removes_exactly_failed (env : Env) (message : Message) (h : Hub)
    (hnd : h.clients.Nodup) :
    ∃ new : List WriteAttempt,
      (broadcastMessage env message h).writes = h.writes ++ new
      ∧ (broadcastMessage env message h).clients
          = h.clients.filter (fun c => decide (c ∉ failedIn new))
      ∧ (broadcastMessage env message h).closed = h.closed ++ failedIn new
      ∧ (∀ c ∈ failedIn new, c ∈ h.clients)
      ∧ (∀ c, c ∈ (broadcastMessage env message h).clients ↔ c ∈ h.clients ∧ c ∉ failedIn new) := by
  have hf := broadcastMessage_fields env message h
  cases henc : env.Marshal message with
  | none =>
    refine ⟨[], ?_, ?_, ?_, ?_, ?_⟩
    · rw [hf.2.1]; simp [fanOutOnly, henc]
    · rw [hf.1]; simp [fanOutOnly, henc, failedIn]
    · rw [hf.2.2.1]; simp [fanOutOnly, henc, failedIn]
    · simp [failedIn]
    · intro c; rw [hf.1]; simp [fanOutOnly, henc, failedIn]
  | some jsonData =>
    have hs := fanOut_spec env jsonData h.clients { h with sent := h.sent ++ [message] } hnd
      (fun c hc => hc)
    have hfail : failedIn (h.clients.map
        (fun c => (⟨c, jsonData, env.WriteMessage c jsonData⟩ : WriteAttempt)))
        = h.clients.filter (fun c => env.WriteMessage c jsonData) := by
      simp [failedIn, List.filter_map, List.map_map, Function.comp_def]
    have hcl : (broadcastMessage env message h).clients
        = h.clients.filter (fun c => decide (c ∉ failedIn (h.clients.map
            (fun c => (⟨c, jsonData, env.WriteMessage c jsonData⟩ : WriteAttempt))))) := by
      rw [hf.1, fanOutOnly_some env message h jsonData henc, hs.2.1, hfail]
      apply List.filter_congr
      intro c hc
      simp [List.mem_filter, hc]
    refine ⟨h.clients.map (fun c => ⟨c, jsonData, env.WriteMessage c jsonData⟩), ?_, hcl, ?_, ?_, ?_⟩
    · rw [hf.2.1, fanOutOnly_some env message h jsonData henc]; exact hs.1
    · rw [hf.2.2.1, fanOutOnly_some env message h jsonData henc, hs.2.2.1, hfail]
    · intro c hc
      rw [hfail] at hc
      exact (List.mem_filter.mp hc).1
    · intro c
      rw [hcl, List.mem_filter]
      simp

/-- Witness for C2: of three registered connections the write to 2 fails;
afterwards the registry holds exactly 1 and 3. -/
theorem broadcastMessage_removes_exactly_failed_witness :
    (broadcastMessage sampleEnv ⟨"online".toList, .int 3⟩ sampleHub).clients = [1, 3]
    ∧ ∃ new : List WriteAttempt,
      (broadcastMessage sampleEnv ⟨"online".toList, .int 3⟩ sampleHub).writes
        = sampleHub.writes ++ new
      ∧ (broadcastMessage sampleEnv ⟨"online".toList, .int 3⟩ sampleHub).clients
          = sampleHub.clients.filter (fun c => decide (c ∉ failedIn new))
      ∧ (broadcastMessage sampleEnv ⟨"online".toList, .int 3⟩ sampleHub).closed
          = sampleHub.closed ++ failedIn new
      ∧ (∀ c ∈ failedIn new, c ∈ sampleHub.clients)
      ∧ (∀ c, c ∈ (broadcastMessage sampleEnv ⟨"online".toList, .int 3⟩ sampleHub).clients
          ↔ c ∈ sampleHub.clients ∧ c ∉ failedIn new) :=
  ⟨by decide, broadcastMessage_removes_exactly_failed sampleEnv _ sampleHub (by decide)⟩

/-! ## Reader loop and heartbeat (C6, C7, C9, C10) -/

theorem chat_ne_online : "chat".toList ≠ "online".toList := by decide

theorem readLoop_sent (env : Env) (ws : Conn) :
    ∀ (reads : List ReadResult) (h : Hub),
      (readLoop env ws reads h).1.sent
        = h.sent ++ (framesRead reads).filterMap
            (fun p => (env.Unmarshal p).map (fun m => ⟨"chat".toList, m.Data⟩)) := by
  intro reads
  induction reads with
  | nil => intro h; simp [readLoop, framesRead]
  | cons r rest ih =>
    intro h
    cases r with
    | err => simp [readLoop, readIter, framesRead]
    | frame p =>
      cases hdec : env.Unmarshal p with
      | none => simp [readLoop, readIter, framesRead, hdec, ih]
      | some m =>
        simp [readLoop, readIter, framesRead, hdec, ih, broadcastMessage_sent]

theorem readLoop_returns_iff (env : Env) (ws : Conn) :
    ∀ (reads : List ReadResult) (h : Hub),
      (readLoop env ws reads h).2 = true ↔ ReadResult.err ∈ reads := by
  intro reads
  induction reads with
  | nil => intro h; simp [readLoop]
  | cons r rest ih =>
    intro h
    cases r with
    | err => simp [readLoop, readIter]
    | frame p =>
      cases hdec : env.Unmarshal p with
      | none => simp [readLoop, readIter, hdec, ih]
      | some m => simp [readLoop, readIter, hdec, ih]

/-- Claim C6. A frame that decodes to `m` makes the reader loop call
`broadcastMessage` exactly once, with the envelope of type `"chat"` and data
`m.Data`, whatever `m.MessageType` is; over any sequence of reads the envelopes
the loop broadcasts are exactly these, one per decoded frame, so none of them
has type `"online"`. -/
theorem readIter_broadcasts_chat (env : Env) (ws : Conn) (p : Bytes) (m : Message) (h : Hub)
    (hdec : env.Unmarshal p = some m) :
    readIter env ws (.frame p) h
        = (broadcastMessage env ⟨"chat".toList, m.Data⟩ h, false)
    ∧ (readIter env ws (.frame p) h).1.sent = h.sent ++ [⟨"chat".toList, m.Data⟩]
    ∧ (∀ (reads : List ReadResult) (h0 : Hub),
        (readLoop env ws reads h0).1.sent
          = h0.sent ++ (framesRead reads).filterMap
              (fun q => (env.Unmarshal q).map (fun d => ⟨"chat".toList, d.Data⟩)))
    ∧ (∀ (reads : List ReadResult) (h0 : Hub),
        ∀ e ∈ (readLoop env ws reads h0).1.sent.drop h0.sent.length,
          e.MessageType = "chat".toList ∧ e.MessageType ≠ "online".toList) := by
  refine ⟨?_, ?_, readLoop_sent env ws, ?_⟩
  · simp [readIter, hdec]
  · simp [readIter, hdec, broadcastMessage_sent]
  · intro reads h0 e he
    rw [readLoop_sent, List.drop_left] at he
    obtain ⟨q, _, hq⟩ := List.mem_filterMap.mp he
    cases hq2 : env.Unmarshal q with
    | none => simp [hq2] at hq
    | some d =>
      simp [hq2] at hq
      subst hq
      exact ⟨rfl, chat_ne_online⟩

/-- Witness for C6: a frame that decodes to an envelope of type `online` is
rebroadcast as `chat`. -/
theorem readIter_broadcasts_chat_witness :
    sampleEnv.Unmarshal [1] = some ⟨"online".toList, .string "@bob: hi there".toList⟩
    ∧ (readIter sampleEnv 1 (.frame [1]) sampleHub).1.sent
        = sampleHub.sent ++ [⟨"chat".toList, .string "@bob: hi there".toList⟩] :=
  ⟨rfl, (readIter_broadcasts_chat sampleEnv 1 [1] _ sampleHub rfl).2.1⟩

/-- Claim C9. A frame that does not decode leaves the whole state as it was (no
broadcast, no store request, registry and connection untouched) and the loop
goes on with the next read; a read error removes the connection, closes it and
returns, and the loop returns only on a read error. -/
theorem readIter_decode_failure_continues (env : Env) (ws : Conn) (p : Bytes) (h : Hub)
    (hdec : env.Unmarshal p = none) :
    readIter env ws (.frame p) h = (h, false)
    ∧ (∀ rest, readLoop env ws (.frame p :: rest) h = readLoop env ws rest h)
    ∧ (readIter env ws .err h
        = ({ h with clients := delete h.clients ws, closed := h.closed ++ [ws] }, true))
    ∧ ws ∉ (readIter env ws .err h).1.clients
    ∧ (∀ (r : ReadResult) (h0 : Hub), (readIter env ws r h0).2 = true ↔ r = .err)
    ∧ (∀ (reads : List ReadResult) (h0 : Hub),
        (readLoop env ws reads h0).2 = true ↔ ReadResult.err ∈ reads) := by
  refine ⟨?_, ?_, rfl, ?_, ?_, readLoop_returns_iff env ws⟩
  · simp [readIter, hdec]
  · intro rest
    simp [readLoop, readIter, hdec]
  · simp [readIter, mem_delete]
  · intro r h0
    cases r with
    | err => simp [readIter]
    | frame q =>
      cases hq : env.Unmarshal q <;> simp [readIter, hq]

/-- Witness for C9: the empty frame does not decode. -/
theorem readIter_decode_failure_continues_witness :
    sampleEnv.Unmarshal [] = none
    ∧ readIter sampleEnv 1 (.frame []) sampleHub = (sampleHub, false) :=
  ⟨rfl, (readIter_decode_failure_continues sampleEnv 1 [] sampleHub rfl).1⟩

/-- Claim C10. For an envelope whose type is not `"chat"`, and for a `"chat"`
envelope whose data is not a string, `broadcastMessage` is the fan-out alone:
no store request is made and the tables are unchanged. -/
theorem broadcastMessage_skips_store (env : Env) (message : Message) (h : Hub)
    (hcase : message.MessageType ≠ "chat".toList ∨ ∀ s, message.Data ≠ .string s) :
    broadcastMessage env message h = fanOutOnly env message h
    ∧ (broadcastMessage env message h).store = h.store
    ∧ (broadcastMessage env message h).calls = h.calls := by
  have key : broadcastMessage env message h = fanOutOnly env message h := by
    unfold broadcastMessage fanOutOnly
    cases henc : env.Marshal message with
    | none => rfl
    | some jsonData =>
      dsimp only
      by_cases hty : message.MessageType = "chat".toList
      · rcases hcase with hne | hns
        · exact absurd hty hne
        · rw [if_neg (not_not.mpr hty)]
          split
          · rename_i s hs
            exact absurd hs (hns s)
          · rfl
      · rw [if_pos hty]
  refine ⟨key, ?_, ?_⟩
  · rw [key]
    unfold fanOutOnly
    cases henc : env.Marshal message with
    | none => rfl
    | some jsonData => exact (fanOut_frame env jsonData _ _).1
  · rw [key]
    unfold fanOutOnly
    cases henc : env.Marshal message with
    | none => rfl
    | some jsonData => exact (fanOut_frame env jsonData _ _).2.1

/-- Witness for C10: the heartbeat's envelope on three connections. -/
theorem broadcastMessage_skips_store_witness :
    (broadcastMessage sampleEnv ⟨"online".toList, .int 3⟩ sampleHub).calls = []
    ∧ (broadcastMessage sampleEnv ⟨"online".toList, .int 3⟩ sampleHub).store = sampleHub.store
    ∧ (broadcastMessage sampleEnv ⟨"online".toList, .int 3⟩ sampleHub).writes.length = 3 :=
  ⟨(broadcastMessage_skips_store sampleEnv ⟨"online".toList, .int 3⟩ sampleHub
      (Or.inl (by decide))).2.2,
   (broadcastMessage_skips_store sampleEnv ⟨"online".toList, .int 3⟩ sampleHub
      (Or.inl (by decide))).2.1, by decide⟩

/-! ## Presence heartbeat (C7) -/

/-- Claim C4. For a chat payload `s` (in an envelope that encodes): when `s` is
`pre ++ ": " ++ post` at the first occurrence of `": "`, the first store
request is the insert of the row with content `post` and name `pre` without a
leading `@`, and it is the only message insert; such a split exists whenever
`s` contains `": "`; when `s` does not contain `": "`, no store request is made
and the tables are unchanged. -/
theorem broadcastMessage_chat_row (env : Env) (s : GoString) (h : Hub) (jsonData : Bytes)
    (henc : env.Marshal ⟨"chat".toList, .string s⟩ = some jsonData) :
    (∀ pre post, s = pre ++ ": ".toList ++ post →
        (∀ p q, s = p ++ ": ".toList ++ q → pre.length ≤ p.length) →
        ∃ rest, (broadcastMessage env ⟨"chat".toList, .string s⟩ h).calls
            = h.calls ++ StoreCall.insertMessage
                ⟨if pre.head? = some '@' then pre.tail else pre, post⟩ :: rest
          ∧ ∀ call ∈ rest, ∀ row, call ≠ StoreCall.insertMessage row)
    ∧ (": ".toList <:+: s →
        ∃ pre post, s = pre ++ ": ".toList ++ post
          ∧ ∀ p q, s = p ++ ": ".toList ++ q → pre.length ≤ p.length)
    ∧ (¬ ": ".toList <:+: s →
        (broadcastMessage env ⟨"chat".toList, .string s⟩ h).calls = h.calls
        ∧ (broadcastMessage env ⟨"chat".toList, .string s⟩ h).store = h.store) := by
  have hbm := broadcastMessage_chat env s h jsonData henc
  have hfo := fanOutOnly_store env ⟨"chat".toList, .string s⟩ h
  refine ⟨?_, exists_first_occurrence s _, ?_⟩
  · intro pre post hs hmin
    rw [hbm, chatRow_first s pre post hs hmin]
    dsimp only
    obtain ⟨rest, hrest, hno⟩ := persist_calls_head env
      ⟨if pre.head? = some '@' then pre.tail else pre, post⟩
      (fanOutOnly env ⟨"chat".toList, .string s⟩ h)
    rw [hfo.2] at hrest
    exact ⟨rest, hrest, hno⟩
  · intro habs
    rw [hbm, chatRow_absent s habs]
    exact ⟨hfo.2, hfo.1⟩

/-- Witness for C4: `"@bob: hi there"` gives the row `{bob, hi there}`, and
`"no delimiter"` makes no store request. -/
theorem broadcastMessage_chat_row_witness :
    (∃ rest, (broadcastMessage sampleEnv ⟨"chat".toList, .string "@bob: hi there".toList⟩
          sampleHub).calls
        = sampleHub.calls ++ StoreCall.insertMessage ⟨"bob".toList, "hi there".toList⟩ :: rest
      ∧ ∀ call ∈ rest, ∀ row, call ≠ StoreCall.insertMessage row)
    ∧ (broadcastMessage sampleEnv ⟨"chat".toList, .string "no delimiter".toList⟩
          sampleHub).calls = sampleHub.calls :=
  ⟨(broadcastMessage_chat_row sampleEnv "@bob: hi there".toList sampleHub [123, 125] rfl).1
      "@bob".toList "hi there".toList (by decide)
      (by
        intro p q hpq
        rcases p with _ | ⟨a, _ | ⟨b, _ | ⟨c, _ | ⟨d, p⟩⟩⟩⟩
        · simp at hpq
        · simp at hpq
        · simp at hpq
        · simp at hpq
        · simp),
   ((broadcastMessage_chat_row sampleEnv "no delimiter".toList sampleHub [123, 125] rfl).2.2
      (by decide)).1⟩

theorem insertCount_inj {a b : GoString} {x y : Int}
    (h : StoreCall.insertCount ⟨a, x⟩ = StoreCall.insertCount ⟨b, y⟩) : a = b ∧ x = y := by
  cases h; exact ⟨rfl, rfl⟩

theorem updateCount_inj {a b : GoString} {x y : Int}
    (h : StoreCall.updateCount a x = StoreCall.updateCount b y) : a = b ∧ x = y := by
  cases h; exact ⟨rfl, rfl⟩

theorem wrapInt64_small (x : Int) (h0 : 0 ≤ x) (h1 : x < 2 ^ 63) : wrapInt64 x = x := by
  unfold wrapInt64
  have e63 : (2 : Int) ^ 63 = 9223372036854775808 := by norm_num
  have e64 : (2 : Int) ^ 64 = 18446744073709551616 := by norm_num
  rw [e63] at h1
  rw [e63, e64]
  omega

/-- One chat message, every store request succeeding: the counter of `c` goes
from `k` to `k + 1` when the message's content is `c` and is left alone
otherwise, and the counter records written for `c` are positive. -/
theorem chat_counter_step (env : Env) (hok : ∀ i, env.Execute i = false) (c s : GoString)
    (h : Hub) (k : Nat)
    (henc : env.Marshal ⟨"chat".toList, .string s⟩ ≠ none)
    (hsel : h.store.select c = if k = 0 then [] else [⟨c, (k : Int)⟩])
    (hk : ((k + contentCount c [s] : Nat) : Int) < 2 ^ 63) :
    (broadcastMessage env ⟨"chat".toList, .string s⟩ h).store.select c
        = (if k + contentCount c [s] = 0 then []
           else [⟨c, ((k + contentCount c [s] : Nat) : Int)⟩])
    ∧ ∃ new, (broadcastMessage env ⟨"chat".toList, .string s⟩ h).calls = h.calls ++ new
        ∧ ∀ call ∈ new,
            (∀ j, call = StoreCall.updateCount c j →
              1 ≤ j ∧ j ≤ ((k + contentCount c [s] : Nat) : Int))
            ∧ (∀ j, call = StoreCall.insertCount ⟨c, j⟩ → j = 1) := by
  obtain ⟨jsonData, henc'⟩ := Option.ne_none_iff_exists'.mp henc
  have hbm := broadcastMessage_chat env s h jsonData henc'
  have hfo := fanOutOnly_store env ⟨"chat".toList, .string s⟩ h
  rw [hbm]
  cases hrow : chatRow s with
  | none =>
    have hd : contentCount c [s] = 0 := by simp [contentCount, hrow]
    dsimp only
    rw [hd, hfo.1, hfo.2]
    exact ⟨hsel, [], by simp, by simp⟩
  | some row =>
    dsimp only
    obtain ⟨hst, hcl⟩ := persist_ok env hok row (fanOutOnly env ⟨"chat".toList, .string s⟩ h)
    rw [hfo.1] at hst
    rw [hfo.1, hfo.2] at hcl
    rw [hst, hcl]
    by_cases hc : row.Content = c
    · have hd : contentCount c [s] = 1 := by simp [contentCount, hrow, hc]
      rw [hd] at hk ⊢
      rw [hc, hsel]
      by_cases hk0 : k = 0
      · subst hk0
        simp only [if_true]
        refine ⟨?_, _, rfl, ?_⟩
        · rw [select_insertCount, select_insertMessage, hsel]
          simp
        · intro call hcall
          simp only [List.mem_cons, List.mem_singleton, List.not_mem_nil, or_false] at hcall
          rcases hcall with rfl | rfl | rfl
          · exact ⟨fun j hj => (by cases hj), fun j hj => (by cases hj)⟩
          · exact ⟨fun j hj => (by cases hj), fun j hj => (by cases hj)⟩
          · refine ⟨fun j hj => (by cases hj), fun j hj => ?_⟩
            exact (insertCount_inj hj).2.symm
      · simp only [hk0, if_false]
        have hw : wrapInt64 ((k : Int) + 1) = ((k + 1 : Nat) : Int) := by
          rw [wrapInt64_small _ (by omega) (by push_cast at hk; exact hk)]
          push_cast; rfl
        refine ⟨?_, _, rfl, ?_⟩
        · rw [select_updateCount_same, select_insertMessage, hsel]
          simp [hk0, hw]
        · intro call hcall
          simp only [List.mem_cons, List.mem_singleton, List.not_mem_nil, or_false] at hcall
          rcases hcall with rfl | rfl | rfl
          · exact ⟨fun j hj => (by cases hj), fun j hj => (by cases hj)⟩
          · exact ⟨fun j hj => (by cases hj), fun j hj => (by cases hj)⟩
          · refine ⟨fun j hj => ?_, fun j hj => (by cases hj)⟩
            rw [← (updateCount_inj hj).2, hw]
            push_cast
            omega
    · have hd : contentCount c [s] = 0 := by simp [contentCount, hrow, hc]
      rw [hd]
      refine ⟨?_, _, rfl, ?_⟩
      · cases h.store.select row.Content with
        | nil =>
          dsimp only
          rw [select_insertCount, select_insertMessage, hsel]
          simp [hc]
        | cons first rest =>
          dsimp only
          rw [select_updateCount_other _ _ _ _ hc, select_insertMessage, hsel]
          simp
      · intro call hcall
        simp only [List.mem_cons, List.mem_singleton, List.not_mem_nil, or_false] at hcall
        rcases hcall with rfl | rfl | rfl
        · exact ⟨fun j hj => (by cases hj), fun j hj => (by cases hj)⟩
        · exact ⟨fun j hj => (by cases hj), fun j hj => (by cases hj)⟩
        · cases h.store.select row.Content with
          | nil =>
            refine ⟨fun j hj => (by cases hj), fun j hj => ?_⟩
            exact absurd (insertCount_inj hj).1 hc
          | cons first rest =>
            refine ⟨fun j hj => ?_, fun j hj => (by cases hj)⟩
            exact absurd (updateCount_inj hj).1 hc

theorem contentCount_cons (c s : GoString) (msgs : List GoString) :
    contentCount c (s :: msgs) = contentCount c [s] + contentCount c msgs := by
  simp only [contentCount, List.countP_cons, List.countP_nil]
  omega

/-- Any number of chat messages, every store request succeeding: the counter
of `c` goes from `k` to `k` plus the number of messages with content `c`. -/
theorem chats_counter (env : Env) (hok : ∀ i, env.Execute i = false) (c : GoString) :
    ∀ (msgs : List GoString) (h : Hub) (k : Nat),
      (∀ s ∈ msgs, env.Marshal ⟨"chat".toList, .string s⟩ ≠ none) →
      (h.store.select c = if k = 0 then [] else [⟨c, (k : Int)⟩]) →
      k + contentCount c msgs < 2 ^ 63 →
      (broadcastChats env msgs h).store.select c
          = (if k + contentCount c msgs = 0 then []
             else [⟨c, ((k + contentCount c msgs : Nat) : Int)⟩])
      ∧ ∃ new, (broadcastChats env msgs h).calls = h.calls ++ new
          ∧ ∀ call ∈ new,
              (∀ j, call = StoreCall.updateCount c j →
                1 ≤ j ∧ j ≤ ((k + contentCount c msgs : Nat) : Int))
              ∧ (∀ j, call = StoreCall.insertCount ⟨c, j⟩ → j = 1) := by
  intro msgs
  induction msgs with
  | nil =>
    intro h k _ hsel _
    have hd : contentCount c [] = 0 := rfl
    simp only [hd, Nat.add_zero]
    exact ⟨hsel, [], by simp [broadcastChats], by simp⟩
  | cons s msgs ih =>
    intro h k henc hsel hk
    rw [contentCount_cons] at hk
    have hk1 : ((k + contentCount c [s] : Nat) : Int) < 2 ^ 63 := by
      have : k + contentCount c [s] < 2 ^ 63 := by omega
      exact_mod_cast this
    obtain ⟨hs1, new1, hc1, hn1⟩ := chat_counter_step env hok c s h k
      (henc s (List.mem_cons_self _ _)) hsel hk1
    obtain ⟨hs2, new2, hc2, hn2⟩ := ih (broadcastMessage env ⟨"chat".toList, .string s⟩ h)
      (k + contentCount c [s]) (fun t ht => henc t (List.mem_cons_of_mem _ ht)) hs1
      (by omega)
    have hrun : broadcastChats env (s :: msgs) h
        = broadcastChats env msgs (broadcastMessage env ⟨"chat".toList, .string s⟩ h) := rfl
    have hsum : k + contentCount c (s :: msgs) = k + contentCount c [s] + contentCount c msgs := by
      rw [contentCount_cons]; omega
    rw [hrun, hsum]
    refine ⟨hs2, new1 ++ new2, by rw [hc2, hc1, List.append_assoc], ?_⟩
    intro call hcall
    rcases List.mem_append.mp hcall with hm | hm
    · refine ⟨fun j hj => ?_, (hn1 call hm).2⟩
      have := (hn1 call hm).1 j hj
      refine ⟨this.1, le_trans this.2 ?_⟩
      exact_mod_cast Nat.le_add_right _ _
    · exact hn2 call hm

/-- Claim C5. From a counter table with no record for `c`, with every store
request succeeding (and fewer than `2^63` matching messages, the range of Go's
`int`): after any sequence of chat messages the records keyed by `c` are none
when no message had content `c`, and otherwise the single record
`{id: c, count: n}` with `n` the number of messages whose content is `c`,
whatever their names; every counter record written for `c` on the way has
count at least 1. -/
theorem counter_counts_messages (env : Env) (hok : ∀ i, env.Execute i = false)
    (c : GoString) (msgs : List GoString) (h : Hub)
    (henc : ∀ s ∈ msgs, env.Marshal ⟨"chat".toList, .string s⟩ ≠ none)
    (hfresh : h.store.select c = [])
    (hbound : contentCount c msgs < 2 ^ 63) :
    (broadcastChats env msgs h).store.select c
        = (if contentCount c msgs = 0 then []
           else [⟨c, ((contentCount c msgs : Nat) : Int)⟩])
    ∧ ∃ new, (broadcastChats env msgs h).calls = h.calls ++ new
        ∧ ∀ call ∈ new,
            (∀ j, call = StoreCall.updateCount c j →
              1 ≤ j ∧ j ≤ ((contentCount c msgs : Nat) : Int))
            ∧ (∀ j, call = StoreCall.insertCount ⟨c, j⟩ → j = 1) := by
  have key := chats_counter env hok c msgs h 0 henc (by simpa using hfresh) (by omega)
  simpa using key

/-- Witness for C5: the first message with content `"42"` gives
`{id: "42", count: 1}`, a second one (with another name) gives
`{id: "42", count: 2}`. -/
theorem counter_counts_messages_witness :
    (broadcastChats sampleEnv ["@alice: 42".toList, "@bob: 42".toList] sampleHub).store.select
        "42".toList
      = (if contentCount "42".toList ["@alice: 42".toList, "@bob: 42".toList] = 0 then []
         else [⟨"42".toList,
            ((contentCount "42".toList ["@alice: 42".toList, "@bob: 42".toList] : Nat) : Int)⟩])
    ∧ (broadcastChats sampleEnv ["@alice: 42".toList, "@bob: 42".toList] sampleHub).store.count
        = [⟨"42".toList, 2⟩]
    ∧ (broadcastChats sampleEnv ["@alice: 42".toList] sampleHub).store.count
        = [⟨"42".toList, 1⟩] :=
  ⟨(counter_counts_messages sampleEnv (fun _ => rfl) "42".toList
      ["@alice: 42".toList, "@bob: 42".toList] sampleHub (by intro s _; simp [sampleEnv])
      (by decide) (by decide)).1,
   by decide, by decide⟩

/-! ## The codec round trip (C8) -/

theorem encode_decode_clean : ∀ (s : JString), s.clean = true →
    encodeString (decodeString s) = s := by
  intro s
  induction s with
  | nil => intro _; rfl
  | cons u s ih =>
    intro h
    simp only [JString.clean, List.all_cons, Bool.and_eq_true] at h
    have ih' := ih (by simpa [JString.clean] using h.2)
    cases u with
    | char c =>
      simp only [encodeString, decodeString, List.map_cons] at ih' ⊢
      rw [ih']
    | surrogate u => simp at h
    | invalid b => simp at h

theorem encodeString_clean (g : GoString) : (encodeString g).clean = true := by
  induction g with
  | nil => rfl
  | cons c g ih =>
    simp only [JString.clean, encodeString, List.map_cons, List.all_cons, Bool.true_and] at ih ⊢
    exact ih

theorem decode_encodeString (g : GoString) : decodeString (encodeString g) = g := by
  induction g with
  | nil => rfl
  | cons c g ih =>
    simp only [encodeString, decodeString, List.map_cons] at ih ⊢
    rw [ih]

theorem encodeString_inj {a b : GoString} (h : encodeString a = encodeString b) : a = b := by
  rw [← decode_encodeString a, ← decode_encodeString b, h]

theorem find_insert_self (k : GoString) (v : Value) :
    ∀ (m : ValueMap), (ValueMap.insert k v m).find k = some v
  | .nil => by simp [ValueMap.insert, ValueMap.find]
  | .cons k1 v1 rest => by
    have ih := find_insert_self k v rest
    unfold ValueMap.insert
    by_cases h1 : k = k1
    · simp [h1, ValueMap.find]
    · rw [if_neg h1]
      by_cases h2 : strLt k k1 = true
      · simp [h2, ValueMap.find]
      · rw [if_neg h2]
        have : ¬ k1 = k := fun h => h1 h.symm
        simp only [ValueMap.find, if_neg this]
        exact ih

theorem find_insert_other (k g : GoString) (v : Value) (hne : k ≠ g) :
    ∀ (m : ValueMap), (ValueMap.insert k v m).find g = m.find g
  | .nil => by simp [ValueMap.insert, ValueMap.find, hne]
  | .cons k1 v1 rest => by
    have ih := find_insert_other k g v hne rest
    unfold ValueMap.insert
    by_cases h1 : k = k1
    · subst h1
      simp [ValueMap.find, hne]
    · rw [if_neg h1]
      by_cases h2 : strLt k k1 = true
      · simp [h2, ValueMap.find, hne]
      · rw [if_neg h2]
        simp only [ValueMap.find]
        rw [ih]

theorem length_insert (k : GoString) (v : Value) :
    ∀ (m : ValueMap), m.find k = none → (ValueMap.insert k v m).length = m.length + 1
  | .nil, _ => by simp [ValueMap.insert, ValueMap.length]
  | .cons k1 v1 rest, hnone => by
    have ih := length_insert k v rest
    unfold ValueMap.insert
    by_cases h1 : k = k1
    · subst h1
      simp [ValueMap.find] at hnone
    · rw [if_neg h1]
      have h1' : ¬ k1 = k := fun h => h1 h.symm
      simp only [ValueMap.find, if_neg h1'] at hnone
      by_cases h2 : strLt k k1 = true
      · simp [h2, ValueMap.length]
      · rw [if_neg h2]
        simp only [ValueMap.length, ih hnone]

theorem find_encodeMap (g : GoString) :
    ∀ (m : ValueMap),
      (json.encodeMap m).find (encodeString g) = (m.find g).map json.encodeValue
  | .nil => by simp [json.encodeMap, JsonMembers.find, ValueMap.find]
  | .cons k1 v1 rest => by
    have ih := find_encodeMap g rest
    simp only [json.encodeMap, JsonMembers.find, ValueMap.find]
    by_cases h1 : k1 = g
    · subst h1
      simp
    · have : ¬ encodeString k1 = encodeString g := fun h => h1 (encodeString_inj h)
      rw [if_neg this, if_neg h1]
      exact ih

theorem length_encodeMap : ∀ (m : ValueMap), (json.encodeMap m).length = m.length
  | .nil => rfl
  | .cons k1 v1 rest => by
    have ih := length_encodeMap rest
    simp [json.encodeMap, JsonMembers.length, ValueMap.length, ih]

theorem clean_of_hasKey : ∀ (ms : JsonMembers) (k : JString),
    ms.kept = true → ms.hasKey k = true → k.clean = true
  | .nil, k, _, h => by simp [JsonMembers.hasKey] at h
  | .cons k1 v ms, k, hk, hh => by
    have ih := clean_of_hasKey ms k
    simp only [JsonMembers.kept, Bool.and_eq_true] at hk
    simp only [JsonMembers.hasKey, Bool.or_eq_true, decide_eq_true_eq] at hh
    rcases hh with rfl | hh
    · exact hk.1.1
    · exact ih hk.2 hh

theorem decodeString_inj_clean {a b : JString} (ha : a.clean = true) (hb : b.clean = true)
    (h : decodeString a = decodeString b) : a = b := by
  rw [← encode_decode_clean a ha, ← encode_decode_clean b hb, h]

theorem find_encodeMap_some (k : JString) (w : Json) :
    ∀ (m : ValueMap), (json.encodeMap m).find k = some w → ∃ g, k = encodeString g
  | .nil, h => by simp [json.encodeMap, JsonMembers.find] at h
  | .cons k1 v1 rest, h => by
    have ih := find_encodeMap_some k w rest
    simp only [json.encodeMap, JsonMembers.find] at h
    by_cases h1 : encodeString k1 = k
    · exact ⟨k1, h1.symm⟩
    · rw [if_neg h1] at h
      exact ih h

/-- Decoding the members of an object leaves alone the entries under other
names. -/
theorem decodeMembers_frame : ∀ (ms : JsonMembers) (acc M : ValueMap),
    json.decodeMembers ms acc = some M →
    ∀ g, (∀ k, ms.hasKey k = true → decodeString k ≠ g) → M.find g = acc.find g
  | .nil, acc, M, h, g, _ => by
    simp only [json.decodeMembers, Option.some.injEq] at h
    rw [h]
  | .cons k j rest, acc, M, h, g, hg => by
    cases hv : json.decodeValue j with
    | none => simp [json.decodeMembers, hv] at h
    | some v =>
      simp only [json.decodeMembers, hv] at h
      have ih := decodeMembers_frame rest _ M h g
        (fun k' hk' => hg k' (by simp [JsonMembers.hasKey, hk']))
      rw [ih]
      exact find_insert_other _ _ _ (hg k (by simp [JsonMembers.hasKey])) acc

/-- With clean names, none repeated and none in the map yet, every member adds
an entry. -/
theorem decodeMembers_length : ∀ (ms : JsonMembers) (acc M : ValueMap),
    json.decodeMembers ms acc = some M →
    (∀ k, ms.hasKey k = true → k.clean = true) → ms.keysDistinct = true →
    (∀ k, ms.hasKey k = true → acc.find (decodeString k) = none) →
    M.length = acc.length + ms.length
  | .nil, acc, M, h, _, _, _ => by
    simp only [json.decodeMembers, Option.some.injEq] at h
    rw [h]; rfl
  | .cons k j rest, acc, M, h, hclean, hdist, hacc => by
    cases hv : json.decodeValue j with
    | none => simp [json.decodeMembers, hv] at h
    | some v =>
      simp only [json.decodeMembers, hv] at h
      simp only [JsonMembers.keysDistinct, Bool.and_eq_true, Bool.not_eq_true'] at hdist
      have hk : k.clean = true := hclean k (by simp [JsonMembers.hasKey])
      have hrest : ∀ k', rest.hasKey k' = true →
          (ValueMap.insert (decodeString k) v acc).find (decodeString k') = none := by
        intro k' hk'
        have hk'c : k'.clean = true := hclean k' (by simp [JsonMembers.hasKey, hk'])
        have hne : decodeString k ≠ decodeString k' := by
          intro heq
          have := decodeString_inj_clean hk hk'c heq
          rw [← this, hdist.1] at hk'
          cases hk'
        rw [find_insert_other _ _ _ hne]
        exact hacc k' (by simp [JsonMembers.hasKey, hk'])
      have ih := decodeMembers_length rest _ M h
        (fun k' hk' => hclean k' (by simp [JsonMembers.hasKey, hk'])) hdist.2 hrest
      rw [ih, length_insert _ _ _ (hacc k (by simp [JsonMembers.hasKey]))]
      simp only [JsonMembers.length]
      omega

mutual
/-- Kept data is decoded, and the encoding of the result has its content. -/
theorem kept_value : ∀ (j : Json), j.kept = true →
    ∃ v, json.decodeValue j = some v ∧ j.same (json.encodeValue v) = true
  | .null, _ => ⟨.nil, rfl, rfl⟩
  | .bool b, _ => ⟨.bool b, rfl, by simp [json.encodeValue, Json.same]⟩
  | .string s, h => by
    simp only [Json.kept] at h
    exact ⟨.string (decodeString s), rfl,
      by simp [json.encodeValue, Json.same, encode_decode_clean s h]⟩
  | .number n, h => by
    simp only [Json.kept, JNumber.kept] at h
    cases hpf : strconv.ParseFloat n with
    | none => simp [hpf] at h
    | some f =>
      simp only [hpf] at h
      exact ⟨.float64 f, by simp [json.decodeValue, hpf],
        by simp [json.encodeValue, Json.same, h]⟩
  | .array xs, h => by
    simp only [Json.kept] at h
    obtain ⟨vs, hd, hs⟩ := kept_list xs h
    exact ⟨.slice vs, by simp [json.decodeValue, hd], by simp [json.encodeValue, Json.same, hs]⟩
  | .object ms, h => by
    simp only [Json.kept, Bool.and_eq_true] at h
    obtain ⟨M, hd, hs⟩ := kept_members ms h.1 h.2 .nil
    have hlen := decodeMembers_length ms .nil M hd (fun k hk => clean_of_hasKey ms k h.1 hk)
      h.2 (fun _ _ => rfl)
    refine ⟨.map M, by simp [json.decodeValue, hd], ?_⟩
    simp only [json.encodeValue, Json.same, Bool.and_eq_true, beq_iff_eq]
    refine ⟨⟨h.2, ?_⟩, hs⟩
    rw [length_encodeMap, hlen]
    simp [ValueMap.length]
/-- The same for the elements of an array. -/
theorem kept_list : ∀ (xs : JsonList), xs.kept = true →
    ∃ vs, json.decodeList xs = some vs ∧ xs.same (json.encodeList vs) = true
  | .nil, _ => ⟨.nil, rfl, rfl⟩
  | .cons j js, h => by
    simp only [JsonList.kept, Bool.and_eq_true] at h
    obtain ⟨v, hd, hs⟩ := kept_value j h.1
    obtain ⟨vs, hds, hss⟩ := kept_list js h.2
    exact ⟨.cons v vs, by simp [json.decodeList, hd, hds],
      by simp [json.encodeList, JsonList.same, hs, hss]⟩
/-- The same for the members of an object, decoded into any map. -/
theorem kept_members : ∀ (ms : JsonMembers), ms.kept = true → ms.keysDistinct = true →
    ∀ acc, ∃ M, json.decodeMembers ms acc = some M
      ∧ ms.sameIn (json.encodeMap M) = true
  | .nil, _, _, acc => ⟨acc, rfl, rfl⟩
  | .cons k j rest, h, hdist, acc => by
    simp only [JsonMembers.kept, Bool.and_eq_true] at h
    simp only [JsonMembers.keysDistinct, Bool.and_eq_true, Bool.not_eq_true'] at hdist
    obtain ⟨v, hd, hs⟩ := kept_value j h.1.2
    obtain ⟨M, hdm, hsm⟩ := kept_members rest h.2 hdist.2
      (ValueMap.insert (decodeString k) v acc)
    refine ⟨M, by simp [json.decodeMembers, hd, hdm], ?_⟩
    have hfind : M.find (decodeString k) = some v := by
      rw [decodeMembers_frame rest _ M hdm (decodeString k), find_insert_self]
      intro k' hk' heq
      have := decodeString_inj_clean (clean_of_hasKey rest k' h.2 hk') h.1.1 heq
      rw [this, hdist.1] at hk'
      cases hk'
    have hfind' : (json.encodeMap M).find k = some (json.encodeValue v) := by
      have := find_encodeMap (decodeString k) M
      rw [encode_decode_clean k h.1.1, hfind] at this
      exact this
    simp only [JsonMembers.sameIn, hfind', hs, hsm, Bool.and_self]
end

theorem sameIn_clean (M : ValueMap) : ∀ (ms : JsonMembers),
    ms.sameIn (json.encodeMap M) = true → ∀ k, ms.hasKey k = true → k.clean = true
  | .nil, _, k, hk => by simp [JsonMembers.hasKey] at hk
  | .cons k1 j rest, h, k, hk => by
    have ih := sameIn_clean M rest
    simp only [JsonMembers.sameIn, Bool.and_eq_true] at h
    simp only [JsonMembers.hasKey, Bool.or_eq_true, decide_eq_true_eq] at hk
    rcases hk with rfl | hk
    · cases hf : (json.encodeMap M).find k1 with
      | none => simp [hf] at h
      | some w =>
        obtain ⟨g, hg⟩ := find_encodeMap_some k1 w M hf
        rw [hg]
        exact encodeString_clean g
    · exact ih h.2 k hk

mutual
/-- Data whose re-encoding has its content is kept data. -/
theorem same_value : ∀ (j : Json) (v : Value), json.decodeValue j = some v →
    j.same (json.encodeValue v) = true → j.kept = true
  | .null, _, _, _ => rfl
  | .bool _, _, _, _ => rfl
  | .string s, v, hd, hs => by
    simp only [json.decodeValue, Option.some.injEq] at hd
    subst hd
    simp only [json.encodeValue, Json.same, beq_iff_eq] at hs
    simp only [Json.kept]
    rw [hs]
    exact encodeString_clean _
  | .number n, v, hd, hs => by
    cases hpf : strconv.ParseFloat n with
    | none => simp [json.decodeValue, hpf] at hd
    | some f =>
      simp only [json.decodeValue, hpf, Option.map_some', Option.some.injEq] at hd
      subst hd
      simp only [json.encodeValue, Json.same] at hs
      simp only [Json.kept, JNumber.kept, hpf, hs]
  | .array xs, v, hd, hs => by
    cases hl : json.decodeList xs with
    | none => simp [json.decodeValue, hl] at hd
    | some vs =>
      simp only [json.decodeValue, hl, Option.map_some', Option.some.injEq] at hd
      subst hd
      simp only [json.encodeValue, Json.same] at hs
      simp only [Json.kept]
      exact same_list xs vs hl hs
  | .object ms, v, hd, hs => by
    cases hm : json.decodeMembers ms .nil with
    | none => simp [json.decodeValue, hm] at hd
    | some M =>
      simp only [json.decodeValue, hm, Option.map_some', Option.some.injEq] at hd
      subst hd
      simp only [json.encodeValue, Json.same, Bool.and_eq_true] at hs
      simp only [Json.kept, Bool.and_eq_true]
      exact ⟨same_members ms .nil M hm hs.1.1 (sameIn_clean M ms hs.2) hs.2, hs.1.1⟩
/-- The same for the elements of an array. -/
theorem same_list : ∀ (xs : JsonList) (vs : ValueList), json.decodeList xs = some vs →
    xs.same (json.encodeList vs) = true → xs.kept = true
  | .nil, _, _, _ => rfl
  | .cons j js, vs, hd, hs => by
    cases hv : json.decodeValue j with
    | none => simp [json.decodeList, hv] at hd
    | some v =>
      cases hl : json.decodeList js with
      | none => simp [json.decodeList, hv, hl] at hd
      | some ws =>
        simp only [json.decodeList, hv, hl, Option.some.injEq] at hd
        subst hd
        simp only [json.encodeList, JsonList.same, Bool.and_eq_true] at hs
        simp only [JsonList.kept, Bool.and_eq_true]
        exact ⟨same_value j v hv hs.1, same_list js ws hl hs.2⟩
/-- The same for the members of an object. -/
theorem same_members : ∀ (ms : JsonMembers) (acc M : ValueMap),
    json.decodeMembers ms acc = some M → ms.keysDistinct = true →
    (∀ k, ms.hasKey k = true → k.clean = true) →
    ms.sameIn (json.encodeMap M) = true → ms.kept = true
  | .nil, _, _, _, _, _, _ => rfl
  | .cons k j rest, acc, M, hd, hdist, hclean, hs => by
    cases hv : json.decodeValue j with
    | none => simp [json.decodeMembers, hv] at hd
    | some v =>
      simp only [json.decodeMembers, hv] at hd
      simp only [JsonMembers.keysDistinct, Bool.and_eq_true, Bool.not_eq_true'] at hdist
      simp only [JsonMembers.sameIn, Bool.and_eq_true] at hs
      have hk : k.clean = true := hclean k (by simp [JsonMembers.hasKey])
      have hrest : ∀ k', rest.hasKey k' = true → k'.clean = true :=
        fun k' hk' => hclean k' (by simp [JsonMembers.hasKey, hk'])
      have hfind : M.find (decodeString k) = some v := by
        rw [decodeMembers_frame rest _ M hd (decodeString k), find_insert_self]
        intro k' hk' heq
        have := decodeString_inj_clean (hrest k' hk') hk heq
        rw [this, hdist.1] at hk'
        cases hk'
      have hfind' : (json.encodeMap M).find k = some (json.encodeValue v) := by
        have := find_encodeMap (decodeString k) M
        rw [encode_decode_clean k hk, hfind] at this
        exact this
      rw [hfind'] at hs
      simp only [JsonMembers.kept, Bool.and_eq_true]
      exact ⟨⟨hk, same_value j v hv hs.1⟩, same_members rest _ M hd hdist.2 hrest hs.2⟩
end

/-- An unpaired surrogate escape comes back as U+FFFD. -/
theorem roundTrip_replaces_surrogate :
    json.roundTrip ⟨encodeString "chat".toList, .string [.surrogate 55296]⟩
      = some ⟨encodeString "chat".toList, .string [.char (Char.ofNat 65533)]⟩ := by
  decide

end ElvWs
